import Mathlib

/-
Verification of the heading feature package: schema and conversion
registration (FormatEngine.init), the heading toggle command
(HeadingCommand with doExecute, refreshValue, checkEnabled and the
helper checkCanBecomeHeading), and the demonstration harness debounce
(Console.update in the title snippet).

Shallow embedding conventions:
  - A model Block is a node carrying its element name; blocks live in a
    flat list and are addressed by their index, which also serves as the
    model position before the block (Position.createBefore).
  - The document selection is the ordered list of indices of the
    selected blocks, so getSelectedBlocks yields index and block pairs.
  - The host Schema is a permission oracle: a boolean function of an
    element name and a position.
  - Mutations are recorded as an explicit list of Op values so that the
    batch each mutation uses is observable.
-/

/-- Block of the document model: a node with an element name. -/
structure Block where
  name : String
deriving Repr, DecidableEq

/-- Host schema: answers whether an element with the given name may be
placed at the given position. Mirrors schema.check taking a name and an
inside position. -/
structure Schema where
  check : String → Nat → Bool

/-- Model position directly before the block at the given index;
embeds Position.createBefore for a flat block list. -/
def positionBefore (blockIdx : Nat) : Nat := blockIdx

/-- Document model state: the block list, the selection given as the
ordered list of selected block indices, and the schema. -/
structure ModelDocument where
  blocks : List Block
  selection : List Nat
  schema : Schema

/-- Selected blocks in order, paired with their indices; an index out of
range yields no block. Embeds document.selection.getSelectedBlocks. -/
def getSelectedBlocks (doc : ModelDocument) : List (Nat × Block) :=
  doc.selection.filterMap (fun i => (doc.blocks[i]?).map (fun b => (i, b)))

/-- Embeds the utils helper named first: the first item of an iterable,
or nothing when the iterable is empty. -/
def first {α : Type} (l : List α) : Option α := l.head?

/-- Embeds checkCanBecomeHeading: whether the given block can be
replaced by the heading, i.e. whether the schema admits the heading name
at the position before the block. -/
def checkCanBecomeHeading (blockIdx : Nat) (heading : String) (schema : Schema) : Bool :=
  schema.check heading (positionBefore blockIdx)

/-- State of a HeadingCommand instance: the target model element name,
the observable value flag and the enablement flag. The constructor sets
value to false. -/
structure HeadingCommand where
  modelElement : String
  value : Bool
  isEnabled : Bool
deriving Repr, DecidableEq

/-- Embeds HeadingCommand.refreshValue: value becomes true exactly when
there is a first selected block and it is the target element. -/
def refreshValue (doc : ModelDocument) (cmd : HeadingCommand) : HeadingCommand :=
  { cmd with
      value :=
        match first (getSelectedBlocks doc) with
        | some ib => ib.2.name == cmd.modelElement
        | none => false }

/-- Embeds the private enablement predicate of HeadingCommand: enabled
exactly when a first selected block exists and it can become the target
heading. -/
def checkEnabled (doc : ModelDocument) (cmd : HeadingCommand) : Bool :=
  match first (getSelectedBlocks doc) with
  | some ib => checkCanBecomeHeading ib.1 cmd.modelElement doc.schema
  | none => false

/-- Embeds the changesDone listener installed by the constructor: after
every set of document changes the command refreshes its value and then
its enablement state. -/
def changesDone (doc : ModelDocument) (cmd : HeadingCommand) : HeadingCommand :=
  let cmd1 := refreshValue doc cmd
  { cmd1 with isEnabled := checkEnabled doc cmd1 }

/-- Model range contained in a single block; embeds Range.createIn on a
block of the flat document. -/
structure ModelRange where
  insideBlock : Nat
deriving Repr, DecidableEq

/-- Model selection handed to a delegated command: a list of ranges. -/
structure ModelSelection where
  ranges : List ModelRange
deriving Repr, DecidableEq

/-- Default plain block element name the revert path produces. -/
def defaultElement : String := "paragraph"

/-- Observable mutation record: a rename of one block performed on a
batch, or one delegated paragraph command invocation carrying the
selection and the batch it was given. -/
inductive Op where
  | rename (blockIdx : Nat) (newName : String) (batch : Nat)
  | paragraphApply (sel : ModelSelection) (batch : Nat)
deriving Repr, DecidableEq

/-- Batch identifier an operation runs on. -/
def Op.batchOf : Op → Nat
  | Op.rename _ _ b => b
  | Op.paragraphApply _ b => b

/-- Whether an operation touches the block at the given index. -/
def Op.targets : Op → Nat → Bool
  | Op.rename j _ _, i => j == i
  | Op.paragraphApply sel _, i => sel.ranges.any (fun r => r.insideBlock == i)

/-- Modelled from the spec: the delegated host paragraph command, which
is not part of this package, reverts every block covered by the given
selection to the default plain block type, using the batch it is handed
so that history is shared. -/
def paragraphExecute (sel : ModelSelection) (batch : Nat) (blks : List Block) :
    List Block × List Op :=
  (sel.ranges.foldl (fun bs r => bs.set r.insideBlock (Block.mk defaultElement)) blks,
   [Op.paragraphApply sel batch])

/-- One iteration of the loop inside doExecute, acting on the block at
index i of the current block list. On the remove path a block that is
the target element is reverted through the paragraph command with a
selection of just that block; on the apply path a block that is not the
target element is renamed to it on the batch. A missing index leaves the
state unchanged (it cannot arise from a selection over the document). -/
def doExecuteStep (modelElement : String) (shouldRemove : Bool) (batch : Nat)
    (acc : List Block × List Op) (i : Nat) : List Block × List Op :=
  match acc.1[i]? with
  | none => acc
  | some b =>
    if shouldRemove then
      if b.name == modelElement then
        let sel : ModelSelection := { ranges := [{ insideBlock := i }] }
        let r := paragraphExecute sel batch acc.1
        (r.1, acc.2 ++ r.2)
      else acc
    else
      if b.name == modelElement then acc
      else (acc.1.set i (Block.mk modelElement), acc.2 ++ [Op.rename i modelElement batch])

/-- Indices of the selected blocks that pass the schema check for the
target element: the filter applied before the loop in doExecute. -/
def eligibleBlocks (doc : ModelDocument) (modelElement : String) : List Nat :=
  ((getSelectedBlocks doc).filter
      (fun ib => checkCanBecomeHeading ib.1 modelElement doc.schema)).map (fun ib => ib.1)

/-- Batch used by one invocation: the batch supplied in the options if
any, else the fresh batch created by document.batch for the
invocation. -/
def resolveBatch (optionsBatch : Option Nat) (freshBatch : Nat) : Nat :=
  match optionsBatch with
  | some b => b
  | none => freshBatch

/-- Embeds HeadingCommand doExecute. The remove flag is the current
value of the command; the batch is the one supplied in the options or
else a fresh batch of this invocation; the filtered selected blocks are
processed in order by doExecuteStep. Returns the updated document and
the recorded mutations. -/
def doExecute (doc : ModelDocument) (cmd : HeadingCommand) (optionsBatch : Option Nat)
    (freshBatch : Nat) : ModelDocument × List Op :=
  let shouldRemove := cmd.value
  let batch := resolveBatch optionsBatch freshBatch
  let r := (eligibleBlocks doc cmd.modelElement).foldl
      (doExecuteStep cmd.modelElement shouldRemove batch) (doc.blocks, [])
  ({ doc with blocks := r.1 }, r.2)

/-- One full user visible invocation: doExecute followed by the
changesDone notification that refreshes the command. -/
def executeCycle (doc : ModelDocument) (cmd : HeadingCommand) (optionsBatch : Option Nat)
    (freshBatch : Nat) : ModelDocument × HeadingCommand :=
  let r := doExecute doc cmd optionsBatch freshBatch
  (r.1, changesDone r.1 cmd)

/-- Embeds the model to view conversion table registered by
FormatEngine.init for the data pipeline. -/
def modelToView : String → Option String
  | "heading1" => some ("h2")
  | "heading2" => some ("h3")
  | "heading3" => some ("h4")
  | _ => none

/-- Embeds the view to model conversion table registered by
FormatEngine.init for the data pipeline. -/
def viewToModel : String → Option String
  | "h2" => some ("heading1")
  | "h3" => some ("heading2")
  | "h4" => some ("heading3")
  | _ => none

/-- State of one Console instance of the demonstration harness: the
pending update counter, the previously displayed data, whether the
element currently carries the updated class, and its text content. -/
structure ConsoleState where
  consoleUpdates : Int
  previousData : String
  updated : Bool
  textContent : String
deriving Repr, DecidableEq

/-- Single quote character used when the harness writes text content. -/
def quoteChar : String := String.mk ['\x27']

/-- Fresh console as built by the Console constructor: counter zero,
empty previous data, and an element without the updated class. -/
def consoleNew (t : String) : ConsoleState :=
  { consoleUpdates := 0, previousData := "", updated := false, textContent := t }

/-- Embeds Console.update: unchanged data returns early; otherwise the
counter is incremented, the updated class added, the text replaced, and
a timer is scheduled (its later expiry is a separate consoleFire
event). -/
def consoleUpdate (s : ConsoleState) (data : String) : ConsoleState :=
  if s.previousData == data then s
  else
    { consoleUpdates := s.consoleUpdates + 1
      previousData := data
      updated := true
      textContent := quoteChar ++ data ++ quoteChar }

/-- Embeds the timeout callback of Console.update firing 500 ms after
its update: the counter is decremented and, exactly when it reaches
zero, the updated class is removed. -/
def consoleFire (s : ConsoleState) : ConsoleState :=
  let n := s.consoleUpdates - 1
  { s with consoleUpdates := n, updated := if n == 0 then false else s.updated }

/-- Events observable on one console: an update call with its data, or
the expiry of one previously scheduled timer. -/
inductive ConsoleEvent where
  | upd (data : String)
  | fire
deriving Repr, DecidableEq

/-- Runs a sequence of console events from a state. -/
def consoleRun (s : ConsoleState) : List ConsoleEvent → ConsoleState
  | [] => s
  | ConsoleEvent.upd d :: es => consoleRun (consoleUpdate s d) es
  | ConsoleEvent.fire :: es => consoleRun (consoleFire s) es

/-- Number of effective updates in an event sequence from a state: the
update calls that pass the changed data check and hence schedule a
timer. -/
def effUpdates (s : ConsoleState) : List ConsoleEvent → Nat
  | [] => 0
  | ConsoleEvent.upd d :: es =>
      (if s.previousData == d then 0 else 1) + effUpdates (consoleUpdate s d) es
  | ConsoleEvent.fire :: es => effUpdates (consoleFire s) es

/-- Number of timer expiries in an event sequence. -/
def fireCount (es : List ConsoleEvent) : Nat :=
  es.countP (fun e => match e with | ConsoleEvent.fire => true | _ => false)

/-- Validity of an event sequence from a state: every expiry is matched
by an earlier effective update still pending, which is what the equal
500 ms delays of the scheduled timers guarantee. -/
def validFrom (s : ConsoleState) : List ConsoleEvent → Bool
  | [] => true
  | ConsoleEvent.upd d :: es => validFrom (consoleUpdate s d) es
  | ConsoleEvent.fire :: es => decide (0 < s.consoleUpdates) && validFrom (consoleFire s) es

/-- Schema permitting every element at every position; concrete
fixture. -/
def schemaAny : Schema := Schema.mk (fun _ _ => true)

/-- Schema permitting elements only at position zero; concrete
fixture. -/
def schemaAtZero : Schema := Schema.mk (fun _ p => p == 0)

/-- Schema permitting nothing; concrete fixture. -/
def schemaNone : Schema := Schema.mk (fun _ _ => false)

/-- Concrete heading1 block. -/
def blockH1 : Block := Block.mk ("heading1")

/-- Concrete heading2 block. -/
def blockH2 : Block := Block.mk ("heading2")

/-- Concrete default plain block. -/
def blockPara : Block := Block.mk defaultElement

/-- Document with two selected blocks, everything permitted. -/
def docPair : ModelDocument := ModelDocument.mk [blockH1, blockH2] [0, 1] schemaAny

/-- Document with one selected heading1 block, everything permitted. -/
def docOne : ModelDocument := ModelDocument.mk [blockH1] [0] schemaAny

/-- Document with one selected heading1 block, nothing permitted. -/
def docOneBlocked : ModelDocument := ModelDocument.mk [blockH1] [0] schemaNone

/-- Document with two selected blocks where only position zero is
permitted. -/
def docPairAtZero : ModelDocument :=
  ModelDocument.mk [blockPara, blockH2] [0, 1] schemaAtZero

/-- Command targeting heading1 with the flags the constructor sets. -/
def cmdH1 : HeadingCommand := HeadingCommand.mk ("heading1") false false

/-- Command targeting heading1 whose value flag is true, consistent
with a selection whose first block is heading1. -/
def cmdH1Active : HeadingCommand := HeadingCommand.mk ("heading1") true true

/-- Membership in getSelectedBlocks unfolds to a selected index holding
that block. -/
theorem mem_getSelectedBlocks {doc : ModelDocument} {i : Nat} {b : Block} :
    (i, b) ∈ getSelectedBlocks doc ↔ i ∈ doc.selection ∧ doc.blocks[i]? = some b := by
  simp only [getSelectedBlocks, List.mem_filterMap]
  constructor
  · rintro ⟨a, ha, hmap⟩
    cases hb : doc.blocks[a]? with
    | none => rw [hb] at hmap; simp at hmap
    | some b2 =>
      rw [hb] at hmap
      simp at hmap
      obtain ⟨rfl, rfl⟩ := hmap
      exact ⟨ha, hb⟩
  · rintro ⟨hi, hb⟩
    exact ⟨i, hi, by rw [hb]; rfl⟩

/-- Membership in the eligible index list unfolds to a selected block at
that index passing the schema check. -/
theorem mem_eligibleBlocks {doc : ModelDocument} {T : String} {i : Nat} :
    i ∈ eligibleBlocks doc T ↔
      ∃ b, (i, b) ∈ getSelectedBlocks doc ∧ checkCanBecomeHeading i T doc.schema = true := by
  simp only [eligibleBlocks, List.mem_map, List.mem_filter]
  constructor
  · rintro ⟨⟨j, b⟩, ⟨hmem, hchk⟩, hj⟩
    cases hj
    exact ⟨b, hmem, hchk⟩
  · rintro ⟨b, hmem, hchk⟩
    exact ⟨(i, b), ⟨hmem, hchk⟩, rfl⟩

/-- A step of the execute loop leaves the number of blocks unchanged. -/
theorem doExecuteStep_length (T : String) (sr : Bool) (batch : Nat)
    (acc : List Block × List Op) (i : Nat) :
    (doExecuteStep T sr batch acc i).1.length = acc.1.length := by
  unfold doExecuteStep
  cases h : acc.1[i]? with
  | none => rfl
  | some b =>
    simp only [paragraphExecute]
    split <;> split <;> simp [List.length_set]

/-- A step of the execute loop at index j does not change the block
slot at a different index i. -/
theorem doExecuteStep_get_ne (T : String) (sr : Bool) (batch : Nat)
    (acc : List Block × List Op) {i j : Nat} (hne : j ≠ i) :
    (doExecuteStep T sr batch acc j).1[i]? = acc.1[i]? := by
  unfold doExecuteStep
  cases h : acc.1[j]? with
  | none => rfl
  | some b =>
    simp only [paragraphExecute]
    split <;> split <;> simp [List.getElem?_set_ne hne]

/-- Operations recorded by a step extend the accumulated list. -/
theorem doExecuteStep_ops_mono (T : String) (sr : Bool) (batch : Nat)
    (acc : List Block × List Op) (j : Nat) :
    ∃ t, (doExecuteStep T sr batch acc j).2 = acc.2 ++ t := by
  unfold doExecuteStep
  cases h : acc.1[j]? with
  | none => exact ⟨[], by simp⟩
  | some b =>
    simp only [paragraphExecute]
    split
    · split
      · exact ⟨_, rfl⟩
      · exact ⟨[], by simp⟩
    · split
      · exact ⟨[], by simp⟩
      · exact ⟨_, rfl⟩

/-- Every operation present after a step at index j was already
recorded, or is the rename of j, or the paragraph revert of j. -/
theorem doExecuteStep_new_ops (T : String) (sr : Bool) (batch : Nat)
    (acc : List Block × List Op) (j : Nat) :
    ∀ op ∈ (doExecuteStep T sr batch acc j).2, op ∈ acc.2 ∨
      op = Op.rename j T batch ∨
      op = Op.paragraphApply (ModelSelection.mk [ModelRange.mk j]) batch := by
  intro op hop
  unfold doExecuteStep at hop
  revert hop
  cases h : acc.1[j]? with
  | none => exact fun hop => Or.inl hop
  | some b =>
    simp only [paragraphExecute]
    split
    · split
      · intro hop
        rcases List.mem_append.mp hop with h1 | h2
        · exact Or.inl h1
        · simp only [List.mem_singleton] at h2
          exact Or.inr (Or.inr h2)
      · exact fun hop => Or.inl hop
    · split
      · exact fun hop => Or.inl hop
      · intro hop
        rcases List.mem_append.mp hop with h1 | h2
        · exact Or.inl h1
        · simp only [List.mem_singleton] at h2
          exact Or.inr (Or.inl h2)

/-- Invariant preservation along the execute loop, with the step
preservation hypothesis restricted to processed indices. -/
theorem foldl_step_inv (T : String) (sr : Bool) (batch : Nat)
    (Q : List Block × List Op → Prop) :
    ∀ (L : List Nat),
      (∀ j ∈ L, ∀ acc, Q acc → Q (doExecuteStep T sr batch acc j)) →
      ∀ acc, Q acc → Q (L.foldl (doExecuteStep T sr batch) acc) := by
  intro L
  induction L with
  | nil => intro _ acc h; simpa using h
  | cons j L ih =>
    intro hstep acc h
    simp only [List.foldl_cons]
    exact ih (fun a ha acc2 hq => hstep a (List.mem_cons_of_mem _ ha) acc2 hq) _
      (hstep j (List.mem_cons_self _ _) acc h)

/-- Operations recorded along the execute loop extend the accumulated
list. -/
theorem foldl_ops_mono (T : String) (sr : Bool) (batch : Nat) :
    ∀ (L : List Nat) (acc : List Block × List Op),
      ∃ t, (L.foldl (doExecuteStep T sr batch) acc).2 = acc.2 ++ t := by
  intro L
  induction L with
  | nil => exact fun acc => ⟨[], by simp⟩
  | cons j L ih =>
    intro acc
    obtain ⟨t1, ht1⟩ := doExecuteStep_ops_mono T sr batch acc j
    obtain ⟨t2, ht2⟩ := ih (doExecuteStep T sr batch acc j)
    exact ⟨t1 ++ t2, by simp [List.foldl_cons, ht2, ht1]⟩

/-- Reverting a singleton selection is a single set to the default
element plus one recorded paragraph invocation. -/
theorem paragraphExecute_single (i : Nat) (batch : Nat) (blks : List Block) :
    paragraphExecute (ModelSelection.mk [ModelRange.mk i]) batch blks =
      (blks.set i (Block.mk defaultElement),
       [Op.paragraphApply (ModelSelection.mk [ModelRange.mk i]) batch]) := rfl

/-- Apply path, step at its own index: afterwards the slot holds the
target element, whether or not it already did. -/
theorem applyStep_at (T : String) (batch : Nat) (acc : List Block × List Op) (i : Nat)
    (b : Block) (h : acc.1[i]? = some b) :
    (doExecuteStep T false batch acc i).1[i]? = some (Block.mk T) := by
  have hlt : i < acc.1.length := (List.getElem?_eq_some.mp h).1
  by_cases hbt : b.name = T
  · have hstep : doExecuteStep T false batch acc i = acc := by
      unfold doExecuteStep
      rw [h]
      simp [hbt]
    rw [hstep, h]
    cases b
    simp_all
  · have hstep : doExecuteStep T false batch acc i =
        (acc.1.set i (Block.mk T), acc.2 ++ [Op.rename i T batch]) := by
      unfold doExecuteStep
      rw [h]
      simp [hbt]
    rw [hstep]
    exact List.getElem?_set_self hlt

/-- Apply path, any step: a slot already holding the target element
keeps holding it. -/
theorem applyStep_pres (T : String) (batch : Nat) (i : Nat) (acc : List Block × List Op)
    (j : Nat) (h : acc.1[i]? = some (Block.mk T)) :
    (doExecuteStep T false batch acc j).1[i]? = some (Block.mk T) := by
  by_cases hji : j = i
  · subst hji
    have hstep : doExecuteStep T false batch acc j = acc := by
      unfold doExecuteStep
      rw [h]
      simp
    rw [hstep]
    exact h
  · rw [doExecuteStep_get_ne T false batch acc hji]
    exact h

/-- Remove path, step at its own index on a block of the target
element: the slot is reverted to the default element and the delegated
paragraph invocation on exactly that block is recorded. -/
theorem removeStep_at (T : String) (batch : Nat) (acc : List Block × List Op) (i : Nat)
    (b : Block) (h : acc.1[i]? = some b) (hbt : b.name = T) :
    (doExecuteStep T true batch acc i).1[i]? = some (Block.mk defaultElement) ∧
    Op.paragraphApply (ModelSelection.mk [ModelRange.mk i]) batch ∈
      (doExecuteStep T true batch acc i).2 := by
  have hlt : i < acc.1.length := (List.getElem?_eq_some.mp h).1
  have hstep : doExecuteStep T true batch acc i =
      (acc.1.set i (Block.mk defaultElement),
       acc.2 ++ [Op.paragraphApply (ModelSelection.mk [ModelRange.mk i]) batch]) := by
    unfold doExecuteStep
    rw [h]
    simp [hbt, paragraphExecute]
  rw [hstep]
  exact ⟨List.getElem?_set_self hlt, by simp⟩

/-- Remove path, any step: a slot already reverted to the default
element keeps holding it. -/
theorem removeStep_pres (T : String) (batch : Nat) (i : Nat) (acc : List Block × List Op)
    (j : Nat) (h : acc.1[i]? = some (Block.mk defaultElement)) :
    (doExecuteStep T true batch acc j).1[i]? = some (Block.mk defaultElement) := by
  by_cases hji : j = i
  · subst hji
    have hlt : j < acc.1.length := (List.getElem?_eq_some.mp h).1
    by_cases hdt : defaultElement = T
    · have hstep : doExecuteStep T true batch acc j =
          (acc.1.set j (Block.mk defaultElement),
           acc.2 ++ [Op.paragraphApply (ModelSelection.mk [ModelRange.mk j]) batch]) := by
        unfold doExecuteStep
        rw [h]
        simp [hdt, paragraphExecute]
      rw [hstep]
      exact List.getElem?_set_self hlt
    · have hstep : doExecuteStep T true batch acc j = acc := by
        unfold doExecuteStep
        rw [h]
        simp [hdt]
      rw [hstep]
      exact h
  · rw [doExecuteStep_get_ne T true batch acc hji]
    exact h

/-- Rename operations target exactly their own block. -/
theorem Op.targets_rename (j i : Nat) (n : String) (batch : Nat) :
    (Op.rename j n batch).targets i = (j == i) := rfl

/-- A paragraph invocation over a single block targets exactly that
block. -/
theorem Op.targets_paragraphSingle (j i : Nat) (batch : Nat) :
    (Op.paragraphApply (ModelSelection.mk [ModelRange.mk j]) batch).targets i = (j == i) := by
  simp [Op.targets]

/-- Apply path, step at its own index on a block that is not the target
element: the slot is renamed and the rename is recorded. -/
theorem applyStep_eq_of_ne (T : String) (batch : Nat) (acc : List Block × List Op) (i : Nat)
    (b : Block) (h : acc.1[i]? = some b) (hbt : b.name ≠ T) :
    doExecuteStep T false batch acc i =
      (acc.1.set i (Block.mk T), acc.2 ++ [Op.rename i T batch]) := by
  unfold doExecuteStep
  rw [h]
  simp [hbt]

/-- Apply path along the loop: an index processed somewhere in the list
ends up holding the target element. -/
theorem applyFold_reach (T : String) (batch : Nat) :
    ∀ (L : List Nat) (acc : List Block × List Op) (i : Nat) (b : Block),
      i ∈ L → acc.1[i]? = some b →
      (L.foldl (doExecuteStep T false batch) acc).1[i]? = some (Block.mk T) := by
  intro L
  induction L with
  | nil => intro acc i b h _; simp at h
  | cons j L ih =>
    intro acc i b hmem hb
    simp only [List.foldl_cons]
    by_cases hji : j = i
    · subst hji
      exact foldl_step_inv T false batch
        (fun acc2 => acc2.1[j]? = some (Block.mk T)) L
        (fun a _ acc2 hq => applyStep_pres T batch j acc2 a hq) _
        (applyStep_at T batch acc j b hb)
    · have hmem2 : i ∈ L := by
        rcases List.mem_cons.mp hmem with h | h
        · exact absurd h.symm hji
        · exact h
      have hb2 : (doExecuteStep T false batch acc j).1[i]? = some b := by
        rw [doExecuteStep_get_ne T false batch acc hji]
        exact hb
      exact ih _ i b hmem2 hb2

/-- Apply path along the loop: an index processed somewhere in the list
that did not hold the target element gets its rename recorded. -/
theorem applyFold_rename_op (T : String) (batch : Nat) :
    ∀ (L : List Nat) (acc : List Block × List Op) (i : Nat) (b : Block),
      i ∈ L → acc.1[i]? = some b → b.name ≠ T →
      Op.rename i T batch ∈ (L.foldl (doExecuteStep T false batch) acc).2 := by
  intro L
  induction L with
  | nil => intro acc i b h _ _; simp at h
  | cons j L ih =>
    intro acc i b hmem hb hbt
    simp only [List.foldl_cons]
    by_cases hji : j = i
    · subst hji
      rw [applyStep_eq_of_ne T batch acc j b hb hbt]
      obtain ⟨t, ht⟩ := foldl_ops_mono T false batch L (acc.1.set j (Block.mk T), acc.2 ++ [Op.rename j T batch])
      rw [ht]
      simp
    · have hmem2 : i ∈ L := by
        rcases List.mem_cons.mp hmem with h | h
        · exact absurd h.symm hji
        · exact h
      have hb2 : (doExecuteStep T false batch acc j).1[i]? = some b := by
        rw [doExecuteStep_get_ne T false batch acc hji]
        exact hb
      exact ih _ i b hmem2 hb2 hbt

/-- Apply path along the loop: a slot already holding the target
element keeps it and no recorded operation ever touches it. -/
theorem applyFold_no_target (T : String) (batch : Nat) (L : List Nat)
    (acc : List Block × List Op) (i : Nat)
    (hb : acc.1[i]? = some (Block.mk T))
    (hops : ∀ op ∈ acc.2, op.targets i = false) :
    (L.foldl (doExecuteStep T false batch) acc).1[i]? = some (Block.mk T) ∧
    ∀ op ∈ (L.foldl (doExecuteStep T false batch) acc).2, op.targets i = false := by
  refine foldl_step_inv T false batch
    (fun acc2 => acc2.1[i]? = some (Block.mk T) ∧ ∀ op ∈ acc2.2, op.targets i = false) L
    ?_ acc ⟨hb, hops⟩
  intro j _ acc2 hq
  refine ⟨applyStep_pres T batch i acc2 j hq.1, ?_⟩
  by_cases hji : j = i
  · subst hji
    have hstep : doExecuteStep T false batch acc2 j = acc2 := by
      unfold doExecuteStep
      rw [hq.1]
      simp
    rw [hstep]
    exact hq.2
  · intro op hop
    rcases doExecuteStep_new_ops T false batch acc2 j op hop with h | h | h
    · exact hq.2 op h
    · subst h
      simp [Op.targets_rename, hji]
    · subst h
      simp [Op.targets_paragraphSingle, hji]

/-- Remove path along the loop: an index processed somewhere in the
list whose block is the target element ends up reverted to the default
element, with the delegated paragraph invocation on exactly that block
recorded. -/
theorem removeFold_reach (T : String) (batch : Nat) :
    ∀ (L : List Nat) (acc : List Block × List Op) (i : Nat) (b : Block),
      i ∈ L → acc.1[i]? = some b → b.name = T →
      (L.foldl (doExecuteStep T true batch) acc).1[i]? = some (Block.mk defaultElement) ∧
      Op.paragraphApply (ModelSelection.mk [ModelRange.mk i]) batch ∈
        (L.foldl (doExecuteStep T true batch) acc).2 := by
  intro L
  induction L with
  | nil => intro acc i b h _ _; simp at h
  | cons j L ih =>
    intro acc i b hmem hb hbt
    simp only [List.foldl_cons]
    by_cases hji : j = i
    · subst hji
      obtain ⟨h1, h2⟩ := removeStep_at T batch acc j b hb hbt
      refine foldl_step_inv T true batch
        (fun acc2 => acc2.1[j]? = some (Block.mk defaultElement) ∧
          Op.paragraphApply (ModelSelection.mk [ModelRange.mk j]) batch ∈ acc2.2) L
        ?_ _ ⟨h1, h2⟩
      intro a _ acc2 hq
      obtain ⟨t, ht⟩ := doExecuteStep_ops_mono T true batch acc2 a
      refine ⟨removeStep_pres T batch j acc2 a hq.1, ?_⟩
      rw [ht]
      exact List.mem_append_left _ hq.2
    · have hmem2 : i ∈ L := by
        rcases List.mem_cons.mp hmem with h | h
        · exact absurd h.symm hji
        · exact h
      have hb2 : (doExecuteStep T true batch acc j).1[i]? = some b := by
        rw [doExecuteStep_get_ne T true batch acc hji]
        exact hb
      exact ih _ i b hmem2 hb2 hbt

/-- Any path along the loop: an index never processed keeps its block,
and every recorded operation either predates the loop or misses it. -/
theorem fold_untouched (T : String) (sr : Bool) (batch : Nat) :
    ∀ (L : List Nat) (acc : List Block × List Op) (i : Nat),
      (∀ j ∈ L, j ≠ i) →
      (L.foldl (doExecuteStep T sr batch) acc).1[i]? = acc.1[i]? ∧
      (∀ op ∈ (L.foldl (doExecuteStep T sr batch) acc).2,
        op ∈ acc.2 ∨ op.targets i = false) := by
  intro L
  induction L with
  | nil => intro acc i _; exact ⟨rfl, fun op hop => Or.inl hop⟩
  | cons j L ih =>
    intro acc i hne
    have hji : j ≠ i := hne j (List.mem_cons_self _ _)
    have hrest : ∀ a ∈ L, a ≠ i := fun a ha => hne a (List.mem_cons_of_mem _ ha)
    simp only [List.foldl_cons]
    obtain ⟨ihg, ihops⟩ := ih (doExecuteStep T sr batch acc j) i hrest
    constructor
    · rw [ihg]
      exact doExecuteStep_get_ne T sr batch acc hji
    · intro op hop
      rcases ihops op hop with h | h
      · rcases doExecuteStep_new_ops T sr batch acc j op h with h2 | h2 | h2
        · exact Or.inl h2
        · subst h2
          refine Or.inr ?_
          simp [Op.targets_rename, hji]
        · subst h2
          refine Or.inr ?_
          simp [Op.targets_paragraphSingle, hji]
      · exact Or.inr h

/-- Any path along the loop: every recorded operation runs on the batch
handed to the loop. -/
theorem fold_ops_batch (T : String) (sr : Bool) (batch : Nat) (L : List Nat)
    (acc : List Block × List Op)
    (hacc : ∀ op ∈ acc.2, op.batchOf = batch) :
    ∀ op ∈ (L.foldl (doExecuteStep T sr batch) acc).2, op.batchOf = batch := by
  refine foldl_step_inv T sr batch (fun acc2 => ∀ op ∈ acc2.2, op.batchOf = batch) L ?_ acc hacc
  intro j _ acc2 hq op hop
  rcases doExecuteStep_new_ops T sr batch acc2 j op hop with h | h | h
  · exact hq op h
  · subst h; rfl
  · subst h; rfl

/-- Unfolding doExecute to its filtered loop. -/
theorem doExecute_eq (doc : ModelDocument) (cmd : HeadingCommand) (ob : Option Nat) (fb : Nat) :
    doExecute doc cmd ob fb =
      ({ doc with blocks := ((eligibleBlocks doc cmd.modelElement).foldl
            (doExecuteStep cmd.modelElement cmd.value (resolveBatch ob fb))
            (doc.blocks, ([] : List Op))).1 },
       ((eligibleBlocks doc cmd.modelElement).foldl
            (doExecuteStep cmd.modelElement cmd.value (resolveBatch ob fb))
            (doc.blocks, ([] : List Op))).2) := rfl

/-- Unfolding executeCycle to doExecute followed by changesDone. -/
theorem executeCycle_eq (doc : ModelDocument) (cmd : HeadingCommand) (ob : Option Nat)
    (fb : Nat) :
    executeCycle doc cmd ob fb =
      ((doExecute doc cmd ob fb).1, changesDone (doExecute doc cmd ob fb).1 cmd) := rfl

/-- The changesDone refresh keeps the target element name. -/
theorem changesDone_modelElement (doc : ModelDocument) (cmd : HeadingCommand) :
    (changesDone doc cmd).modelElement = cmd.modelElement := rfl

/-- The value after changesDone is the refreshed value. -/
theorem changesDone_value (doc : ModelDocument) (cmd : HeadingCommand) :
    (changesDone doc cmd).value = (refreshValue doc cmd).value := rfl

/-- Remove path, step at its own index on a block of the target
element, as an equation. -/
theorem removeStep_eq_of_eq (T : String) (batch : Nat) (acc : List Block × List Op) (i : Nat)
    (b : Block) (h : acc.1[i]? = some b) (hbt : b.name = T) :
    doExecuteStep T true batch acc i =
      (acc.1.set i (Block.mk defaultElement),
       acc.2 ++ [Op.paragraphApply (ModelSelection.mk [ModelRange.mk i]) batch]) := by
  unfold doExecuteStep
  rw [h]
  simp [hbt, paragraphExecute]

/-- Selecting exactly one existing block yields exactly that indexed
block. -/
theorem getSelectedBlocks_single (blks : List Block) (sch : Schema) (i : Nat) (b : Block)
    (hb : blks[i]? = some b) :
    getSelectedBlocks (ModelDocument.mk blks [i] sch) = [(i, b)] := by
  simp [getSelectedBlocks, hb]

/-- With one selected existing block passing the schema check, the
filtered index list is exactly that index. -/
theorem eligibleBlocks_single (blks : List Block) (sch : Schema) (i : Nat) (b : Block)
    (T : String) (hb : blks[i]? = some b) (hchk : checkCanBecomeHeading i T sch = true) :
    eligibleBlocks (ModelDocument.mk blks [i] sch) T = [i] := by
  simp only [eligibleBlocks, getSelectedBlocks_single blks sch i b hb]
  simp [hchk]

/-- Execute on a single selected eligible block not of the target
element, with the value flag false: the block is renamed to the target
element and exactly one rename on the invocation batch is recorded. -/
theorem doExecute_single_apply (blks : List Block) (sch : Schema) (i : Nat) (b : Block)
    (cmd : HeadingCommand) (ob : Option Nat) (fb : Nat)
    (hb : blks[i]? = some b)
    (hchk : checkCanBecomeHeading i cmd.modelElement sch = true)
    (hval : cmd.value = false) (hnot : b.name ≠ cmd.modelElement) :
    doExecute (ModelDocument.mk blks [i] sch) cmd ob fb =
      (ModelDocument.mk (blks.set i (Block.mk cmd.modelElement)) [i] sch,
       [Op.rename i cmd.modelElement (resolveBatch ob fb)]) := by
  rw [doExecute_eq, hval, eligibleBlocks_single blks sch i b cmd.modelElement hb hchk]
  simp only [List.foldl_cons, List.foldl_nil]
  rw [applyStep_eq_of_ne cmd.modelElement (resolveBatch ob fb)
    ((ModelDocument.mk blks [i] sch).blocks, ([] : List Op)) i b hb hnot]
  rfl

/-- Execute on a single selected eligible block of the target element,
with the value flag true: the block is reverted to the default element
and exactly one delegated paragraph invocation on the invocation batch
is recorded, whose selection covers only that block. -/
theorem doExecute_single_remove (blks : List Block) (sch : Schema) (i : Nat) (b : Block)
    (cmd : HeadingCommand) (ob : Option Nat) (fb : Nat)
    (hb : blks[i]? = some b)
    (hchk : checkCanBecomeHeading i cmd.modelElement sch = true)
    (hval : cmd.value = true) (hbt : b.name = cmd.modelElement) :
    doExecute (ModelDocument.mk blks [i] sch) cmd ob fb =
      (ModelDocument.mk (blks.set i (Block.mk defaultElement)) [i] sch,
       [Op.paragraphApply (ModelSelection.mk [ModelRange.mk i]) (resolveBatch ob fb)]) := by
  rw [doExecute_eq, hval, eligibleBlocks_single blks sch i b cmd.modelElement hb hchk]
  simp only [List.foldl_cons, List.foldl_nil]
  rw [removeStep_eq_of_eq cmd.modelElement (resolveBatch ob fb)
    ((ModelDocument.mk blks [i] sch).blocks, ([] : List Op)) i b hb hbt]
  rfl

/-- An update call with unchanged data is a no op. -/
theorem consoleUpdate_ineffective (s : ConsoleState) (d : String)
    (h : (s.previousData == d) = true) : consoleUpdate s d = s := by
  simp [consoleUpdate, h]

/-- An update call with changed data increments the counter, records
the data, sets the class and rewrites the text. -/
theorem consoleUpdate_effective (s : ConsoleState) (d : String)
    (h : (s.previousData == d) = false) :
    consoleUpdate s d = ConsoleState.mk (s.consoleUpdates + 1) d true
      (quoteChar ++ d ++ quoteChar) := by
  simp [consoleUpdate, h]

/-- A timer expiry decrements the counter and clears the class exactly
when the decremented counter is zero. -/
theorem consoleFire_eq (s : ConsoleState) :
    consoleFire s = ConsoleState.mk (s.consoleUpdates - 1) s.previousData
      (if s.consoleUpdates - 1 == 0 then false else s.updated) s.textContent := rfl

/-- Running an appended event sequence is sequential composition. -/
theorem consoleRun_append (s : ConsoleState) (es1 es2 : List ConsoleEvent) :
    consoleRun s (es1 ++ es2) = consoleRun (consoleRun s es1) es2 := by
  induction es1 generalizing s with
  | nil => rfl
  | cons e es ih => cases e <;> simp [consoleRun, ih]

/-- Validity splits over an appended event sequence. -/
theorem validFrom_append (s : ConsoleState) (es1 es2 : List ConsoleEvent) :
    validFrom s (es1 ++ es2) = (validFrom s es1 && validFrom (consoleRun s es1) es2) := by
  induction es1 generalizing s with
  | nil => simp [validFrom, consoleRun]
  | cons e es ih =>
    cases e with
    | upd d => simp [validFrom, consoleRun, ih]
    | fire => simp [validFrom, consoleRun, ih, Bool.and_assoc]

/-- A trailing expiry adds no effective update. -/
theorem effUpdates_append_fire (s : ConsoleState) (es : List ConsoleEvent) :
    effUpdates s (es ++ [ConsoleEvent.fire]) = effUpdates s es := by
  induction es generalizing s with
  | nil => simp [effUpdates]
  | cons e es ih => cases e <;> simp [effUpdates, ih]

/-- A trailing expiry adds one to the expiry count. -/
theorem fireCount_append_fire (es : List ConsoleEvent) :
    fireCount (es ++ [ConsoleEvent.fire]) = fireCount es + 1 := by
  simp [fireCount, List.countP_append, List.countP_cons]

/-- Debounce invariant: over a valid event sequence from a state whose
counter is nonnegative and whose updated class is present exactly while
the counter is positive, the counter stays the starting counter plus
effective updates minus expiries, and the class keeps tracking counter
positivity. -/
theorem consoleRun_inv :
    ∀ (es : List ConsoleEvent) (s : ConsoleState),
      validFrom s es = true → 0 ≤ s.consoleUpdates →
      s.updated = decide (0 < s.consoleUpdates) →
      (consoleRun s es).consoleUpdates =
        s.consoleUpdates + (effUpdates s es : Int) - (fireCount es : Int) ∧
      (consoleRun s es).updated = decide (0 < (consoleRun s es).consoleUpdates) := by
  intro es
  induction es with
  | nil =>
    intro s _ _ hu
    refine ⟨?_, ?_⟩
    · simp [consoleRun, effUpdates, fireCount]
    · simpa [consoleRun] using hu
  | cons e es ih =>
    intro s hv h0 hu
    cases e with
    | upd d =>
      by_cases hpd : (s.previousData == d) = true
      · have hup : consoleUpdate s d = s := consoleUpdate_ineffective s d hpd
        have hv2 : validFrom s es = true := by
          have : validFrom (consoleUpdate s d) es = true := hv
          rwa [hup] at this
        obtain ⟨h1, h2⟩ := ih s hv2 h0 hu
        refine ⟨?_, ?_⟩
        · show (consoleRun (consoleUpdate s d) es).consoleUpdates =
            s.consoleUpdates + ((effUpdates s (ConsoleEvent.upd d :: es) : Nat) : Int) -
              (fireCount (ConsoleEvent.upd d :: es) : Int)
          rw [hup]
          have heff : effUpdates s (ConsoleEvent.upd d :: es) = effUpdates s es := by
            simp [effUpdates, hpd, hup]
          have hfc : fireCount (ConsoleEvent.upd d :: es) = fireCount es := by
            simp [fireCount, List.countP_cons]
          rw [heff, hfc]
          exact h1
        · show (consoleRun (consoleUpdate s d) es).updated =
            decide (0 < (consoleRun (consoleUpdate s d) es).consoleUpdates)
          rw [hup]
          exact h2
      · have hpd2 : (s.previousData == d) = false := by
          cases h : s.previousData == d with
          | false => rfl
          | true => exact absurd h hpd
        have hup := consoleUpdate_effective s d hpd2
        have hv2 : validFrom (consoleUpdate s d) es = true := hv
        have h02 : 0 ≤ (consoleUpdate s d).consoleUpdates := by
          rw [hup]
          simp only []
          omega
        have hu2 : (consoleUpdate s d).updated =
            decide (0 < (consoleUpdate s d).consoleUpdates) := by
          rw [hup]
          simp only []
          have : (0 : Int) < s.consoleUpdates + 1 := by omega
          simp [this]
        obtain ⟨h1, h2⟩ := ih (consoleUpdate s d) hv2 h02 hu2
        refine ⟨?_, h2⟩
        show (consoleRun (consoleUpdate s d) es).consoleUpdates =
          s.consoleUpdates + ((effUpdates s (ConsoleEvent.upd d :: es) : Nat) : Int) -
            (fireCount (ConsoleEvent.upd d :: es) : Int)
        have heff : effUpdates s (ConsoleEvent.upd d :: es) =
            1 + effUpdates (consoleUpdate s d) es := by
          simp [effUpdates, hpd2]
        have hfc : fireCount (ConsoleEvent.upd d :: es) = fireCount es := by
          simp [fireCount, List.countP_cons]
        rw [heff, hfc, h1, hup]
        simp only []
        push_cast
        ring
    | fire =>
      have hv0 : (decide (0 < s.consoleUpdates) && validFrom (consoleFire s) es) = true := hv
      have hpos : 0 < s.consoleUpdates := by
        have := Bool.and_elim_left hv0
        simpa using this
      have hv2 : validFrom (consoleFire s) es = true := Bool.and_elim_right hv0
      have h02 : 0 ≤ (consoleFire s).consoleUpdates := by
        rw [consoleFire_eq]
        simp only []
        omega
      have hu2 : (consoleFire s).updated = decide (0 < (consoleFire s).consoleUpdates) := by
        rw [consoleFire_eq]
        simp only []
        by_cases hn : s.consoleUpdates - 1 = 0
        · simp [hn]
        · have hgt : (0 : Int) < s.consoleUpdates - 1 := by omega
          have hne : ((s.consoleUpdates - 1 == 0) : Bool) = false := by
            simp [hn]
          rw [hne]
          simp [hu, hpos, hgt]
      obtain ⟨h1, h2⟩ := ih (consoleFire s) hv2 h02 hu2
      refine ⟨?_, h2⟩
      show (consoleRun (consoleFire s) es).consoleUpdates =
        s.consoleUpdates + ((effUpdates s (ConsoleEvent.fire :: es) : Nat) : Int) -
          (fireCount (ConsoleEvent.fire :: es) : Int)
      have heff : effUpdates s (ConsoleEvent.fire :: es) = effUpdates (consoleFire s) es := by
        simp [effUpdates]
      have hfc : fireCount (ConsoleEvent.fire :: es) = fireCount es + 1 := by
        simp [fireCount, List.countP_cons]
      rw [heff, hfc, h1, consoleFire_eq]
      simp only []
      push_cast
      ring

/-- C5: the registered model and view conversions form a bijection on
the three declared pairs: heading1, heading2 and heading3 convert to
the output tags h2, h3 and h4 respectively, each tag converts back to
the same model element name, and the round trip through the output tag
is the identity on each of the three model names. -/
theorem c5_theorem :
    modelToView ("heading1") = some ("h2") ∧ viewToModel ("h2") = some ("heading1") ∧
    modelToView ("heading2") = some ("h3") ∧ viewToModel ("h3") = some ("heading2") ∧
    modelToView ("heading3") = some ("h4") ∧ viewToModel ("h4") = some ("heading3") ∧
    (modelToView ("heading1")).bind viewToModel = some ("heading1") ∧
    (modelToView ("heading2")).bind viewToModel = some ("heading2") ∧
    (modelToView ("heading3")).bind viewToModel = some ("heading3") :=
  ⟨rfl, rfl, rfl, rfl, rfl, rfl, rfl, rfl, rfl⟩

/-- C2: after a document change the refreshed observable value is true
exactly when the selection contains at least one block and the first
selected block has the target element name, and the value depends only
on the first selected block, never on later ones. -/
theorem c2_theorem (doc : ModelDocument) (cmd : HeadingCommand) :
    ((changesDone doc cmd).value = true ↔
      ∃ ib l, getSelectedBlocks doc = ib :: l ∧ ib.2.name = cmd.modelElement) ∧
    ∀ doc2 : ModelDocument,
      first (getSelectedBlocks doc2) = first (getSelectedBlocks doc) →
      (changesDone doc2 cmd).value = (changesDone doc cmd).value := by
  constructor
  · rw [changesDone_value]
    unfold refreshValue
    cases hgs : getSelectedBlocks doc with
    | nil => simp [first]
    | cons ib l => simp [first, beq_iff_eq]
  · intro doc2 h
    rw [changesDone_value, changesDone_value]
    unfold refreshValue
    rw [h]

/-- C3: the enablement predicate is false exactly when no block is
selected or the target element is not schema-permitted at the position
of the first selected block; in particular a selection consisting
solely of one block not permitted for the target disables the
command. -/
theorem c3_theorem (doc : ModelDocument) (cmd : HeadingCommand) :
    (checkEnabled doc cmd = false ↔
      getSelectedBlocks doc = [] ∨
      ∃ ib l, getSelectedBlocks doc = ib :: l ∧
        checkCanBecomeHeading ib.1 cmd.modelElement doc.schema = false) ∧
    ∀ i b, getSelectedBlocks doc = [(i, b)] →
      checkCanBecomeHeading i cmd.modelElement doc.schema = false →
      checkEnabled doc cmd = false := by
  constructor
  · unfold checkEnabled
    cases hgs : getSelectedBlocks doc with
    | nil => simp [first]
    | cons ib l =>
      simp only [first, List.head?_cons]
      constructor
      · intro h
        exact Or.inr ⟨ib, l, rfl, h⟩
      · rintro (h | ⟨ib2, l2, heq, hchk⟩)
        · exact absurd h (List.cons_ne_nil _ _)
        · injection heq with h1 h2
          rw [h1]
          exact hchk
  · intro i b hgs hchk
    unfold checkEnabled
    rw [hgs]
    simpa [first] using hchk

/-- C10: enablement is decided by the first selected block alone: a
selection whose first block passes the schema check for the target
element enables the command, whatever the later selected blocks are. -/
theorem c10_theorem (doc : ModelDocument) (cmd : HeadingCommand) (i : Nat) (b : Block)
    (l : List (Nat × Block))
    (hgs : getSelectedBlocks doc = (i, b) :: l)
    (hchk : checkCanBecomeHeading i cmd.modelElement doc.schema = true) :
    checkEnabled doc cmd = true := by
  unfold checkEnabled
  rw [hgs]
  simpa [first] using hchk

/-- C1 counterexample: with the value flag true, consistently with the
first selected block being of the target element, a second selected
block that passes the schema check but is of a different element is not
reverted to the default element; the claim that every eligible selected
block is reverted fails on it. -/
theorem c1_counterexample :
    cmdH1Active.value = true ∧
    (1, blockH2) ∈ getSelectedBlocks docPair ∧
    checkCanBecomeHeading 1 cmdH1Active.modelElement docPair.schema = true ∧
    (doExecute docPair cmdH1Active none 0).1.blocks[1]? = some blockH2 ∧
    (doExecute docPair cmdH1Active none 0).1.blocks[1]? ≠
      some (Block.mk defaultElement) := by
  refine ⟨rfl, ?_, rfl, ?_, ?_⟩ <;> decide

/-- C1 (amended): with the value flag true, every eligible selected
block that is currently of the target element is reverted to the
default plain element, and the recorded delegated paragraph invocation
for it carries a selection covering exactly that block, sharing the
invocation batch; eligible selected blocks of other elements are not
reverted (see the counterexample to the unamended claim). -/
theorem c1_theorem (doc : ModelDocument) (cmd : HeadingCommand) (ob : Option Nat) (fb : Nat)
    (i : Nat) (b : Block)
    (hval : cmd.value = true)
    (hmem : (i, b) ∈ getSelectedBlocks doc)
    (hchk : checkCanBecomeHeading i cmd.modelElement doc.schema = true)
    (hbT : b.name = cmd.modelElement) :
    (doExecute doc cmd ob fb).1.blocks[i]? = some (Block.mk defaultElement) ∧
    Op.paragraphApply (ModelSelection.mk [ModelRange.mk i]) (resolveBatch ob fb) ∈
      (doExecute doc cmd ob fb).2 := by
  have hb : doc.blocks[i]? = some b := (mem_getSelectedBlocks.mp hmem).2
  have hmem2 : i ∈ eligibleBlocks doc cmd.modelElement := mem_eligibleBlocks.mpr ⟨b, hmem, hchk⟩
  rw [doExecute_eq, hval]
  exact removeFold_reach cmd.modelElement (resolveBatch ob fb)
    (eligibleBlocks doc cmd.modelElement) (doc.blocks, []) i b hmem2 hb hbT

/-- C4: with the value flag false, every eligible selected block ends
up of the target element: one not already of it is renamed to it with
the rename recorded on the invocation batch, while one already of it
keeps its block untouched, with no recorded mutation targeting it. -/
theorem c4_theorem (doc : ModelDocument) (cmd : HeadingCommand) (ob : Option Nat) (fb : Nat)
    (i : Nat) (b : Block)
    (hval : cmd.value = false)
    (hmem : (i, b) ∈ getSelectedBlocks doc)
    (hchk : checkCanBecomeHeading i cmd.modelElement doc.schema = true) :
    (doExecute doc cmd ob fb).1.blocks[i]? = some (Block.mk cmd.modelElement) ∧
    (b.name ≠ cmd.modelElement →
      Op.rename i cmd.modelElement (resolveBatch ob fb) ∈ (doExecute doc cmd ob fb).2) ∧
    (b.name = cmd.modelElement →
      (doExecute doc cmd ob fb).1.blocks[i]? = some b ∧
      ∀ op ∈ (doExecute doc cmd ob fb).2, op.targets i = false) := by
  have hb : doc.blocks[i]? = some b := (mem_getSelectedBlocks.mp hmem).2
  have hmem2 : i ∈ eligibleBlocks doc cmd.modelElement := mem_eligibleBlocks.mpr ⟨b, hmem, hchk⟩
  rw [doExecute_eq, hval]
  refine ⟨?_, ?_, ?_⟩
  · exact applyFold_reach cmd.modelElement (resolveBatch ob fb)
      (eligibleBlocks doc cmd.modelElement) (doc.blocks, []) i b hmem2 hb
  · intro hne
    exact applyFold_rename_op cmd.modelElement (resolveBatch ob fb)
      (eligibleBlocks doc cmd.modelElement) (doc.blocks, []) i b hmem2 hb hne
  · intro hbT
    obtain ⟨n⟩ := b
    replace hbT : n = cmd.modelElement := hbT
    subst hbT
    have h := applyFold_no_target cmd.modelElement (resolveBatch ob fb)
      (eligibleBlocks doc cmd.modelElement) (doc.blocks, []) i hb
      (fun op hop => absurd hop (List.not_mem_nil op))
    exact h

/-- C7: a selected block failing the schema check for the target
element is left completely unchanged by execute: its slot still holds
the same block and no recorded mutation targets it, and execute is a
total function, so no error arises. -/
theorem c7_theorem (doc : ModelDocument) (cmd : HeadingCommand) (ob : Option Nat) (fb : Nat)
    (i : Nat) (b : Block)
    (hmem : (i, b) ∈ getSelectedBlocks doc)
    (hchk : checkCanBecomeHeading i cmd.modelElement doc.schema = false) :
    (doExecute doc cmd ob fb).1.blocks[i]? = some b ∧
    ∀ op ∈ (doExecute doc cmd ob fb).2, op.targets i = false := by
  have hb : doc.blocks[i]? = some b := (mem_getSelectedBlocks.mp hmem).2
  have hne : ∀ j ∈ eligibleBlocks doc cmd.modelElement, j ≠ i := by
    intro j hj hji
    subst hji
    obtain ⟨b2, _, hchk2⟩ := mem_eligibleBlocks.mp hj
    rw [hchk2] at hchk
    simp at hchk
  obtain ⟨hg, hops⟩ := fold_untouched cmd.modelElement cmd.value (resolveBatch ob fb)
    (eligibleBlocks doc cmd.modelElement) (doc.blocks, []) i hne
  rw [doExecute_eq]
  constructor
  · rw [hg]
    exact hb
  · intro op hop
    rcases hops op hop with h | h
    · simp at h
    · exact h

/-- C8: every mutation recorded by one execute invocation, the
delegated paragraph invocations included, runs on the single batch of
that invocation: the batch supplied in the options when present,
otherwise the fresh batch created for the invocation. -/
theorem c8_theorem (doc : ModelDocument) (cmd : HeadingCommand) (ob : Option Nat) (fb : Nat) :
    ((doExecute doc cmd ob fb).2).all
      (fun op => op.batchOf == resolveBatch ob fb) = true := by
  rw [List.all_eq_true]
  intro op hop
  rw [doExecute_eq] at hop
  have h := fold_ops_batch cmd.modelElement cmd.value (resolveBatch ob fb)
    (eligibleBlocks doc cmd.modelElement) (doc.blocks, [])
    (fun op2 h2 => absurd h2 (List.not_mem_nil op2)) op hop
  exact beq_iff_eq.mpr h

/-- C6 counterexample: for an eligible block already of the target
element, with the value flag consistently true, the first invocation
reverts the block to the default element and the refreshed value
becomes false, not the claimed rename to the target with a true
value. -/
theorem c6_counterexample :
    checkCanBecomeHeading 0 cmdH1Active.modelElement docOne.schema = true ∧
    cmdH1Active.value = (blockH1.name == cmdH1Active.modelElement) ∧
    (executeCycle docOne cmdH1Active none 0).1.blocks[0]? = some (Block.mk defaultElement) ∧
    (executeCycle docOne cmdH1Active none 0).1.blocks[0]? ≠
      some (Block.mk cmdH1Active.modelElement) ∧
    (executeCycle docOne cmdH1Active none 0).2.value = false := by
  refine ⟨rfl, rfl, ?_, ?_, ?_⟩ <;> decide

/-- C6 (amended): for a block eligible for the target element that is
not already of it, with a target different from the default element and
the value flag consistent with the refreshed value, one invocation on a
selection of only that block renames it to the target and the value
becomes true, and a second invocation reverts it to the default element
and the value becomes false. The amendment excludes a block already of
the target element, where the first invocation reverts instead (see the
counterexample), and a target equal to the default element, where the
value stays true after the second invocation. -/
theorem c6_theorem (blks : List Block) (sch : Schema) (i : Nat) (b : Block)
    (cmd : HeadingCommand) (ob1 ob2 : Option Nat) (fb1 fb2 : Nat)
    (hb : blks[i]? = some b)
    (hchk : checkCanBecomeHeading i cmd.modelElement sch = true)
    (hval : cmd.value = (b.name == cmd.modelElement))
    (hnot : b.name ≠ cmd.modelElement)
    (hT : cmd.modelElement ≠ defaultElement) :
    (executeCycle (ModelDocument.mk blks [i] sch) cmd ob1 fb1).1.blocks[i]? =
      some (Block.mk cmd.modelElement) ∧
    (executeCycle (ModelDocument.mk blks [i] sch) cmd ob1 fb1).2.value = true ∧
    (executeCycle (executeCycle (ModelDocument.mk blks [i] sch) cmd ob1 fb1).1
        (executeCycle (ModelDocument.mk blks [i] sch) cmd ob1 fb1).2 ob2 fb2).1.blocks[i]? =
      some (Block.mk defaultElement) ∧
    (executeCycle (executeCycle (ModelDocument.mk blks [i] sch) cmd ob1 fb1).1
        (executeCycle (ModelDocument.mk blks [i] sch) cmd ob1 fb1).2 ob2 fb2).2.value =
      false := by
  have hvf : cmd.value = false := by
    rw [hval]
    exact beq_eq_false_iff_ne.mpr hnot
  have hlt : i < blks.length := (List.getElem?_eq_some.mp hb).1
  have hde1 := doExecute_single_apply blks sch i b cmd ob1 fb1 hb hchk hvf hnot
  have hcy1 : executeCycle (ModelDocument.mk blks [i] sch) cmd ob1 fb1 =
      (ModelDocument.mk (blks.set i (Block.mk cmd.modelElement)) [i] sch,
       changesDone (ModelDocument.mk (blks.set i (Block.mk cmd.modelElement)) [i] sch) cmd) := by
    rw [executeCycle_eq, hde1]
  have e1 : (executeCycle (ModelDocument.mk blks [i] sch) cmd ob1 fb1).1 =
      ModelDocument.mk (blks.set i (Block.mk cmd.modelElement)) [i] sch := by
    rw [hcy1]
  have e2 : (executeCycle (ModelDocument.mk blks [i] sch) cmd ob1 fb1).2 =
      changesDone (ModelDocument.mk (blks.set i (Block.mk cmd.modelElement)) [i] sch) cmd := by
    rw [hcy1]
  have hset1 : (blks.set i (Block.mk cmd.modelElement))[i]? = some (Block.mk cmd.modelElement) :=
    List.getElem?_set_self hlt
  have hgs1 : getSelectedBlocks
      (ModelDocument.mk (blks.set i (Block.mk cmd.modelElement)) [i] sch) =
      [(i, Block.mk cmd.modelElement)] :=
    getSelectedBlocks_single _ sch i _ hset1
  have hcmd1v : (changesDone
      (ModelDocument.mk (blks.set i (Block.mk cmd.modelElement)) [i] sch) cmd).value = true := by
    rw [changesDone_value]
    unfold refreshValue
    rw [hgs1]
    simp [first]
  have hm1 : (changesDone
      (ModelDocument.mk (blks.set i (Block.mk cmd.modelElement)) [i] sch) cmd).modelElement =
      cmd.modelElement := changesDone_modelElement _ _
  have hchk1 : checkCanBecomeHeading i (changesDone
      (ModelDocument.mk (blks.set i (Block.mk cmd.modelElement)) [i] sch) cmd).modelElement
      sch = true := by
    rw [hm1]
    exact hchk
  have hbt1 : (Block.mk cmd.modelElement).name = (changesDone
      (ModelDocument.mk (blks.set i (Block.mk cmd.modelElement)) [i] sch) cmd).modelElement := by
    rw [hm1]
  have hb1 : (blks.set i (Block.mk cmd.modelElement))[i]? = some (Block.mk cmd.modelElement) :=
    hset1
  have hde2 := doExecute_single_remove (blks.set i (Block.mk cmd.modelElement)) sch i
    (Block.mk cmd.modelElement)
    (changesDone (ModelDocument.mk (blks.set i (Block.mk cmd.modelElement)) [i] sch) cmd)
    ob2 fb2 hb1 hchk1 hcmd1v hbt1
  have hcy2 : executeCycle
      (ModelDocument.mk (blks.set i (Block.mk cmd.modelElement)) [i] sch)
      (changesDone (ModelDocument.mk (blks.set i (Block.mk cmd.modelElement)) [i] sch) cmd)
      ob2 fb2 =
      (ModelDocument.mk ((blks.set i (Block.mk cmd.modelElement)).set i
          (Block.mk defaultElement)) [i] sch,
       changesDone (ModelDocument.mk ((blks.set i (Block.mk cmd.modelElement)).set i
          (Block.mk defaultElement)) [i] sch)
         (changesDone (ModelDocument.mk (blks.set i (Block.mk cmd.modelElement)) [i] sch) cmd)) := by
    rw [executeCycle_eq, hde2]
  have hlt2 : i < (blks.set i (Block.mk cmd.modelElement)).length := by
    rw [List.length_set]
    exact hlt
  have hset2 : ((blks.set i (Block.mk cmd.modelElement)).set i
      (Block.mk defaultElement))[i]? = some (Block.mk defaultElement) :=
    List.getElem?_set_self hlt2
  have hgs2 : getSelectedBlocks (ModelDocument.mk ((blks.set i (Block.mk cmd.modelElement)).set i
      (Block.mk defaultElement)) [i] sch) = [(i, Block.mk defaultElement)] :=
    getSelectedBlocks_single _ sch i _ hset2
  have hd : defaultElement ≠ cmd.modelElement := Ne.symm hT
  have hcmd2v : (changesDone (ModelDocument.mk ((blks.set i (Block.mk cmd.modelElement)).set i
      (Block.mk defaultElement)) [i] sch)
      (changesDone (ModelDocument.mk (blks.set i (Block.mk cmd.modelElement)) [i] sch)
        cmd)).value = false := by
    rw [changesDone_value]
    unfold refreshValue
    rw [hgs2]
    simp [first, hm1, hd]
  refine ⟨?_, ?_, ?_, ?_⟩
  · rw [e1]
    exact hset1
  · rw [e2]
    exact hcmd1v
  · rw [e1, e2, hcy2]
    exact hset2
  · rw [e1, e2, hcy2]
    exact hcmd2v

/-- C9: in the demonstration harness console, an update with changed
data increments the pending counter and sets the updated class; a timer
expiry decrements the counter, and a set class is cleared exactly when
the decremented counter reaches zero; consequently, for any valid event
sequence from a fresh console ending in an expiry, the class is absent
after that expiry precisely when no further effective update happened
after the one whose 500 ms timer is expiring, i.e. when the effective
update count equals the expiry count. -/
theorem c9_theorem (t : String) (es : List ConsoleEvent)
    (hv : validFrom (consoleNew t) (es ++ [ConsoleEvent.fire]) = true) :
    (∀ s : ConsoleState, ∀ d : String, (s.previousData == d) = false →
      (consoleUpdate s d).consoleUpdates = s.consoleUpdates + 1 ∧
      (consoleUpdate s d).updated = true) ∧
    (∀ s : ConsoleState, (consoleFire s).consoleUpdates = s.consoleUpdates - 1 ∧
      ((consoleFire s).updated = false ↔
        s.consoleUpdates - 1 = 0 ∨ s.updated = false)) ∧
    ((consoleRun (consoleNew t) (es ++ [ConsoleEvent.fire])).updated = false ↔
      effUpdates (consoleNew t) es = fireCount es + 1) := by
  refine ⟨?_, ?_, ?_⟩
  · intro s d h
    rw [consoleUpdate_effective s d h]
    exact ⟨rfl, rfl⟩
  · intro s
    rw [consoleFire_eq]
    refine ⟨rfl, ?_⟩
    by_cases hn : s.consoleUpdates - 1 = 0
    · simp [hn]
    · simp [hn]
  · have hsplit := validFrom_append (consoleNew t) es [ConsoleEvent.fire]
    rw [hsplit] at hv
    have hv1 : validFrom (consoleNew t) es = true := Bool.and_elim_left hv
    have hv2 : validFrom (consoleRun (consoleNew t) es) [ConsoleEvent.fire] = true :=
      Bool.and_elim_right hv
    have hpos : 0 < (consoleRun (consoleNew t) es).consoleUpdates := by
      simp [validFrom] at hv2
      exact hv2
    obtain ⟨hc, hup⟩ := consoleRun_inv es (consoleNew t) hv1 (by simp [consoleNew])
      (by simp [consoleNew])
    have hupt : (consoleRun (consoleNew t) es).updated = true := by
      rw [hup]
      simp [hpos]
    have hrun : consoleRun (consoleNew t) (es ++ [ConsoleEvent.fire]) =
        consoleFire (consoleRun (consoleNew t) es) := by
      rw [consoleRun_append]
      rfl
    rw [hrun, consoleFire_eq]
    show (if ((consoleRun (consoleNew t) es).consoleUpdates - 1 == 0)
        then false else (consoleRun (consoleNew t) es).updated) = false ↔
      effUpdates (consoleNew t) es = fireCount es + 1
    rw [hupt]
    have h0 : (consoleNew t).consoleUpdates = 0 := rfl
    by_cases hz : (consoleRun (consoleNew t) es).consoleUpdates - 1 = 0
    · rw [hc, h0] at hz
      have hbz : (((consoleRun (consoleNew t) es).consoleUpdates - 1 == 0) : Bool) = true := by
        rw [hc, h0]
        simp only [beq_iff_eq]
        exact hz
      rw [hbz]
      simp only [if_true]
      constructor
      · intro _
        omega
      · intro _
        trivial
    · rw [hc, h0] at hz
      have hbz : (((consoleRun (consoleNew t) es).consoleUpdates - 1 == 0) : Bool) = false := by
        rw [hc, h0]
        simp only [beq_eq_false_iff_ne]
        exact hz
      rw [hbz]
      simp only [Bool.false_eq_true, if_false]
      constructor
      · intro h
        exact absurd h (by simp)
      · intro h
        exfalso
        omega

/-- Witness for C1 at a concrete document, command and batch. -/
theorem c1_witness :
    cmdH1Active.value = true ∧
    (doExecute docPair cmdH1Active none 0).1.blocks[0]? = some (Block.mk defaultElement) ∧
    Op.paragraphApply (ModelSelection.mk [ModelRange.mk 0]) (resolveBatch none 0) ∈
      (doExecute docPair cmdH1Active none 0).2 := by
  have h := c1_theorem docPair cmdH1Active none 0 0 blockH1 rfl (by decide) rfl rfl
  exact ⟨rfl, h.1, h.2⟩

/-- Witness for C2 at two concrete documents sharing the first selected
block. -/
theorem c2_witness :
    (changesDone docPair cmdH1).value = (changesDone docOne cmdH1).value ∧
    (changesDone docOne cmdH1).value = true := by
  refine ⟨(c2_theorem docOne cmdH1).2 docPair (by decide), ?_⟩
  exact ((c2_theorem docOne cmdH1).1).mpr ⟨(0, blockH1), [], by decide, rfl⟩

/-- Witness for C3 at a concrete single block selection failing the
schema check. -/
theorem c3_witness :
    getSelectedBlocks docOneBlocked = [(0, blockH1)] ∧
    checkCanBecomeHeading 0 cmdH1.modelElement docOneBlocked.schema = false ∧
    checkEnabled docOneBlocked cmdH1 = false := by
  refine ⟨by decide, rfl, ?_⟩
  exact (c3_theorem docOneBlocked cmdH1).2 0 blockH1 (by decide) rfl

/-- Witness for C4 at a concrete document, with a caller supplied
batch. -/
theorem c4_witness :
    cmdH1.value = false ∧
    (doExecute docPair cmdH1 (some 5) 0).1.blocks[1]? = some (Block.mk cmdH1.modelElement) ∧
    Op.rename 1 cmdH1.modelElement (resolveBatch (some 5) 0) ∈
      (doExecute docPair cmdH1 (some 5) 0).2 := by
  have h := c4_theorem docPair cmdH1 (some 5) 0 1 blockH2 rfl (by decide) rfl
  exact ⟨rfl, h.1, h.2.1 (by decide)⟩

/-- Witness for C6 at a concrete eligible plain block toggled twice. -/
theorem c6_witness :
    cmdH1.value = (blockPara.name == cmdH1.modelElement) ∧
    (executeCycle (ModelDocument.mk [blockPara] [0] schemaAny) cmdH1 none 0).1.blocks[0]? =
      some (Block.mk cmdH1.modelElement) ∧
    (executeCycle (ModelDocument.mk [blockPara] [0] schemaAny) cmdH1 none 0).2.value = true ∧
    (executeCycle (executeCycle (ModelDocument.mk [blockPara] [0] schemaAny) cmdH1 none 0).1
        (executeCycle (ModelDocument.mk [blockPara] [0] schemaAny) cmdH1 none 0).2
        (some 5) 1).2.value = false := by
  have h := c6_theorem [blockPara] schemaAny 0 blockPara cmdH1 none (some 5) 0 1 rfl rfl
    (by decide) (by decide) (by decide)
  exact ⟨by decide, h.1, h.2.1, h.2.2.2⟩

/-- Witness for C7 at a concrete selected block failing the schema
check. -/
theorem c7_witness :
    checkCanBecomeHeading 1 cmdH1.modelElement docPairAtZero.schema = false ∧
    (doExecute docPairAtZero cmdH1 none 0).1.blocks[1]? = some blockH2 := by
  have h := c7_theorem docPairAtZero cmdH1 none 0 1 blockH2 (by decide) rfl
  exact ⟨rfl, h.1⟩

/-- Witness for C9 at a concrete one update trace followed by its
expiry. -/
theorem c9_witness :
    validFrom (consoleNew ("")) ([ConsoleEvent.upd ("a")] ++ [ConsoleEvent.fire]) = true ∧
    ((consoleRun (consoleNew ("")) ([ConsoleEvent.upd ("a")] ++
        [ConsoleEvent.fire])).updated = false ↔
      effUpdates (consoleNew ("")) [ConsoleEvent.upd ("a")] =
        fireCount [ConsoleEvent.upd ("a")] + 1) := by
  refine ⟨by decide, ?_⟩
  exact (c9_theorem ("") [ConsoleEvent.upd ("a")] (by decide)).2.2

/-- Witness for C10 at a concrete multi block selection whose second
block fails the schema check. -/
theorem c10_witness :
    checkCanBecomeHeading 0 cmdH1.modelElement docPairAtZero.schema = true ∧
    checkCanBecomeHeading 1 cmdH1.modelElement docPairAtZero.schema = false ∧
    checkEnabled docPairAtZero cmdH1 = true := by
  refine ⟨rfl, rfl, ?_⟩
  exact c10_theorem docPairAtZero cmdH1 0 blockPara [(1, blockH2)] (by decide) rfl
